import Mathlib

/-
Verification of rs_partial_set (src/lib.rs): a set of values `V` indexed,
hashed and compared by a projected key `P` obtained through the trait
method `ToPartial::to_partial`, here called `project`.

The Rust wrapper type around one value (called after the spec a keyed
entry) is embedded as `KeyedEntry`; the container wraps a
`HashSet<KeyedEntry, S>`.  The hash table is modelled as the list of its
entries in iteration order: the spec fixes no iteration order, and every
operation of lib.rs delegates to a std `HashSet` operation whose
behaviour on the entry collection is captured by the corresponding list
operation (lookup by the first key match, insertion of a fresh entry,
in-place replacement of the key-equal entry, removal of the key-equal
entry, filtering, draining in iteration order).
-/

set_option autoImplicit false

namespace RsPartialSet

variable {V P : Type}

/-- Embeds the keyed wrapper `struct` of src/lib.rs lines 18-26: it owns one
value; its `PhantomData` marker carries no data and is dropped. The
projection function `project` (the trait method of lib.rs lines 8-10) is a
parameter of every operation. -/
structure KeyedEntry (V P : Type) where
  value : V

/-- Embeds the `Hash` impl of lib.rs lines 38-46: hashing delegates to the
hash of the projected key, `self.value.to_partial().hash(state)`; the
hasher is abstracted as a function from keys to hash codes. -/
def KeyedEntry.hashWith (project : V → P) (hashP : P → Nat)
    (a : KeyedEntry V P) : Nat :=
  hashP (project a.value)

/-- Embeds the `PartialEq<P>` impl of lib.rs lines 48-56:
`self.value.to_partial() == other`. This is the bridge letting a bare key
act as a search key (together with the `Borrow<P>` impl of lines 87-95,
which exposes the same projected key). -/
def KeyedEntry.eqKey [DecidableEq P] (project : V → P)
    (a : KeyedEntry V P) (k : P) : Bool :=
  project a.value == k

/-- Embeds the entry-to-entry `PartialEq` impl of lib.rs lines 64-72:
`self.value.to_partial() == other.value.to_partial()`. -/
def KeyedEntry.eqEntry [DecidableEq P] (project : V → P)
    (a b : KeyedEntry V P) : Bool :=
  project a.value == project b.value

/-- Embeds the set container of lib.rs lines 97-104: `inner` is the
`HashSet` of keyed entries, modelled as its entry list in iteration
order. -/
structure PartSet (V P : Type) where
  inner : List (KeyedEntry V P)

namespace PartSet

variable [DecidableEq P]

/-- `new` of lib.rs lines 193-197 (capacity is not part of the entry
model; `with_capacity` builds the same empty entry collection). -/
def new : PartSet V P :=
  ⟨[]⟩

/-- `len` of lib.rs lines 274-276. -/
def len (s : PartSet V P) : Nat :=
  s.inner.length

/-- `is_empty` of lib.rs lines 262-264. -/
def isEmpty (s : PartSet V P) : Bool :=
  s.inner.isEmpty

/-- `iter` of lib.rs lines 268-272 together with the `Iter` iterator of
lines 134-144: a borrowing traversal yielding each entry's value. -/
def iter (project : V → P) (s : PartSet V P) : List V :=
  s.inner.map KeyedEntry.value

/-- `contains` of lib.rs lines 232-234: `HashSet::contains` with the bare
key as search key; an entry matches when its projected key equals the
key (the `PartialEq<P>` bridge). -/
def contains (project : V → P) (s : PartSet V P) (k : P) : Bool :=
  s.inner.any (fun e => KeyedEntry.eqKey project e k)

/-- `get` of lib.rs lines 248-250: `HashSet::get` returns the stored
entry equal to the search key, mapped to its value. -/
def get (project : V → P) (s : PartSet V P) (k : P) : Option V :=
  (s.inner.find? (fun e => KeyedEntry.eqKey project e k)).map KeyedEntry.value

/-- `insert` of lib.rs lines 256-258: `HashSet::insert` adds the fresh
entry only when no equal entry (equal projected key) is present, and
reports whether it was added; on collision the old entry is kept. -/
def insert (project : V → P) (s : PartSet V P) (v : V) :
    PartSet V P × Bool :=
  if s.inner.any (fun e => KeyedEntry.eqEntry project e ⟨v⟩) then (s, false)
  else (⟨s.inner ++ [⟨v⟩]⟩, true)

/-- Entry-list recursion behind `replace`: `HashSet::replace` swaps the
new entry in for the (unique) equal entry in place and hands the old one
back, or adds the new entry when no equal one exists. -/
def replaceList (project : V → P) (v : V) :
    List (KeyedEntry V P) → List (KeyedEntry V P) × Option V
  | [] => ([⟨v⟩], none)
  | e :: es =>
    if KeyedEntry.eqEntry project e ⟨v⟩ then (⟨v⟩ :: es, some e.value)
    else
      let r := replaceList project v es
      (e :: r.1, r.2)

/-- `replace` of lib.rs lines 282-284. -/
def replace (project : V → P) (s : PartSet V P) (v : V) :
    PartSet V P × Option V :=
  let r := replaceList project v s.inner
  (⟨r.1⟩, r.2)

/-- Entry-list recursion behind `take`: `HashSet::take` removes the entry
equal to the search key, handing its value back. -/
def takeList (project : V → P) (k : P) :
    List (KeyedEntry V P) → List (KeyedEntry V P) × Option V
  | [] => ([], none)
  | e :: es =>
    if KeyedEntry.eqKey project e k then (es, some e.value)
    else
      let r := takeList project k es
      (e :: r.1, r.2)

/-- `take` of lib.rs lines 307-313, queried with the bare projected
key. -/
def take (project : V → P) (s : PartSet V P) (k : P) :
    PartSet V P × Option V :=
  let r := takeList project k s.inner
  (⟨r.1⟩, r.2)

/-- `remove` of lib.rs lines 278-280: `HashSet::remove` is removal of the
key-equal entry, reporting whether one was removed (the removed value is
dropped). -/
def remove (project : V → P) (s : PartSet V P) (k : P) :
    PartSet V P × Bool :=
  let r := take project s k
  (r.1, r.2.isSome)

/-- `difference` of lib.rs lines 236-240 with the `Difference` iterator of
lines 155-166: lazily yields the values of entries of `self` that have no
equal entry (equal projected key) in `other`, in iteration order. -/
def difference (project : V → P) (s other : PartSet V P) : List V :=
  (s.inner.filter
      (fun e => ! other.inner.any (fun o => KeyedEntry.eqEntry project e o))).map
    KeyedEntry.value

/-- `retain` of lib.rs lines 290-295: keeps exactly the entries whose
value satisfies the predicate. -/
def retain (s : PartSet V P) (f : V → Bool) : PartSet V P :=
  ⟨s.inner.filter (fun e => f e.value)⟩

/-- `clear` of lib.rs lines 228-230: removes all entries (capacity,
which it keeps, is not part of the entry model). -/
def clear (s : PartSet V P) : PartSet V P :=
  ⟨[]⟩

/-- `reserve` of lib.rs lines 286-288: grows capacity only; the entry
collection is untouched. -/
def reserve (s : PartSet V P) (additional : Nat) : PartSet V P :=
  s

/-- `shrink_to` / `shrink_to_fit` of lib.rs lines 297-303: shrink capacity
only; the entry collection is untouched. -/
def shrink (s : PartSet V P) (minCapacity : Nat) : PartSet V P :=
  s

end PartSet

/-- The `Drain` iterator of lib.rs lines 114-132: while it is alive it
holds (mutably borrows) the set whose entries are queued for removal;
each `next` yields the front entry's value and removes it. -/
structure DrainIter (V P : Type) where
  set : PartSet V P

/-- `drain` of lib.rs lines 242-246: hands the whole entry collection to
the drain iterator as its removal queue. -/
def PartSet.drain (s : PartSet V P) : DrainIter V P :=
  ⟨s⟩

/-- `Drain::next` of lib.rs lines 129-131: `self.inner.next().map(|p| p.value)`. -/
def DrainIter.next : DrainIter V P → Option V × DrainIter V P
  | ⟨⟨[]⟩⟩ => (none, ⟨⟨[]⟩⟩)
  | ⟨⟨e :: es⟩⟩ => (some e.value, ⟨⟨es⟩⟩)

/-- One consumption step of the drain iterator (discarding the yielded
value). -/
def DrainIter.step (d : DrainIter V P) : DrainIter V P :=
  d.next.2

/-- Full consumption of the drain iterator: the list of yielded values,
and the drained set left behind. -/
def DrainIter.consume : DrainIter V P → List V × PartSet V P
  | ⟨⟨[]⟩⟩ => ([], ⟨[]⟩)
  | ⟨⟨e :: es⟩⟩ =>
    let r := DrainIter.consume ⟨⟨es⟩⟩
    (e.value :: r.1, r.2)

/-! ### The no-duplicate-keys invariant and the reachable states -/

/-- The set invariant of the spec (section 3): no two members have equal
projected keys. -/
def KeyUnique (project : V → P) (s : PartSet V P) : Prop :=
  s.inner.Pairwise (fun a b => project a.value ≠ project b.value)

/-- Number of stored entries whose projected key equals `k`. -/
def keyCount [DecidableEq P] (project : V → P) (s : PartSet V P) (k : P) :
    Nat :=
  (s.inner.filter (fun e => KeyedEntry.eqKey project e k)).length

/-- The set states reachable from the empty set by the public mutating
operations of lib.rs: insert, replace, remove, take, retain, drain
consumption steps, clear, reserve and shrink. -/
inductive Reachable [DecidableEq P] (project : V → P) : PartSet V P → Prop where
  | newStep : Reachable project PartSet.new
  | insertStep (s : PartSet V P) (v : V) :
      Reachable project s → Reachable project (PartSet.insert project s v).1
  | replaceStep (s : PartSet V P) (v : V) :
      Reachable project s → Reachable project (PartSet.replace project s v).1
  | removeStep (s : PartSet V P) (k : P) :
      Reachable project s → Reachable project (PartSet.remove project s k).1
  | takeStep (s : PartSet V P) (k : P) :
      Reachable project s → Reachable project (PartSet.take project s k).1
  | retainStep (s : PartSet V P) (f : V → Bool) :
      Reachable project s → Reachable project (PartSet.retain s f)
  | drainStep (s : PartSet V P) :
      Reachable project s → Reachable project (PartSet.drain s).step.set
  | clearStep (s : PartSet V P) :
      Reachable project s → Reachable project (PartSet.clear s)
  | reserveStep (s : PartSet V P) (n : Nat) :
      Reachable project s → Reachable project (PartSet.reserve s n)
  | shrinkStep (s : PartSet V P) (n : Nat) :
      Reachable project s → Reachable project (PartSet.shrink s n)

/-! ### The fallible reserve -/

/-- The allocation-failure report of the sole fallible operation
(`std::collections::TryReserveError`, re-exported at the public
surface). -/
inductive TryReserveError where
  | capacityOverflow
  | allocError
  deriving DecidableEq

/-- Largest entry budget the table can ever allocate for. -/
def maxCapacity : Nat := 2 ^ 63 - 1

/-- Modelled from the spec: `PartialSet::try_reserve` (lib.rs lines
315-317) only delegates to `HashSet::try_reserve`, whose body is std
code outside src/. Per the spec (sections 4.3, 7 and 8) it reports an
allocation-failure error for a request that cannot be satisfied — such
as an adversarially huge one — instead of aborting, and on success the
table can hold at least `additional` further entries. Capacity is
modelled as an entry budget bounded by `maxCapacity`; the result is the
new budget. -/
def PartSet.try_reserve (s : PartSet V P) (capacity additional : Nat) :
    Except TryReserveError Nat :=
  if maxCapacity < PartSet.len s + additional then
    .error .capacityOverflow
  else
    .ok (max capacity (PartSet.len s + additional))

/-! ### A concrete instance, mirroring the test type of src/test.rs -/

/-- Concrete projection mirroring the `Test` type of src/test.rs: a pair
of key and payload projects to its first component. -/
def pFst : ℕ × ℕ → ℕ :=
  Prod.fst

/-- A concrete two-entry set over that projection. -/
def wSet : PartSet (ℕ × ℕ) ℕ :=
  ⟨[⟨(1, 10)⟩, ⟨(2, 20)⟩]⟩

/-- A concrete one-entry set sharing the projected key 2 with `wSet`. -/
def wOther : PartSet (ℕ × ℕ) ℕ :=
  ⟨[⟨(2, 99)⟩]⟩

/-! ### Basic lemmas about the embedded operations -/

section Lemmas

variable [DecidableEq P] (project : V → P)

theorem eqKey_eq_true {e : KeyedEntry V P} {k : P} :
    KeyedEntry.eqKey project e k = true ↔ project e.value = k := by
  simp [KeyedEntry.eqKey]

theorem eqKey_eq_false {e : KeyedEntry V P} {k : P} :
    KeyedEntry.eqKey project e k = false ↔ project e.value ≠ k := by
  simp [KeyedEntry.eqKey]

theorem eqEntry_mk {e : KeyedEntry V P} {v : V} :
    KeyedEntry.eqEntry project e ⟨v⟩ = KeyedEntry.eqKey project e (project v) := rfl

theorem contains_eq_false {s : PartSet V P} {k : P} :
    PartSet.contains project s k = false ↔ ∀ e ∈ s.inner, project e.value ≠ k := by
  simp [PartSet.contains, KeyedEntry.eqKey]

theorem contains_eq_true {s : PartSet V P} {k : P} :
    PartSet.contains project s k = true ↔ ∃ e ∈ s.inner, project e.value = k := by
  simp [PartSet.contains, KeyedEntry.eqKey]

theorem insert_eq_ite (s : PartSet V P) (v : V) :
    PartSet.insert project s v =
      if PartSet.contains project s (project v) = true then (s, false)
      else (⟨s.inner ++ [⟨v⟩]⟩, true) := rfl

theorem takeList_eq_none (k : P) {l : List (KeyedEntry V P)}
    (h : ∀ e ∈ l, project e.value ≠ k) :
    PartSet.takeList project k l = (l, none) := by
  induction l with
  | nil => rfl
  | cons e es ih =>
    have he : KeyedEntry.eqKey project e k = false :=
      (eqKey_eq_false project).mpr (h e (by simp))
    simp [PartSet.takeList, he, ih (fun x hx => h x (by simp [hx]))]

theorem takeList_append (k : P) {l₁ : List (KeyedEntry V P)}
    (l₂ : List (KeyedEntry V P)) (h : ∀ e ∈ l₁, project e.value ≠ k) :
    PartSet.takeList project k (l₁ ++ l₂) =
      (l₁ ++ (PartSet.takeList project k l₂).1,
        (PartSet.takeList project k l₂).2) := by
  induction l₁ with
  | nil => simp
  | cons e es ih =>
    have he : KeyedEntry.eqKey project e k = false :=
      (eqKey_eq_false project).mpr (h e (by simp))
    simp [PartSet.takeList, he, ih (fun x hx => h x (by simp [hx]))]

theorem takeList_sublist (k : P) (l : List (KeyedEntry V P)) :
    (PartSet.takeList project k l).1.Sublist l := by
  induction l with
  | nil => simp [PartSet.takeList]
  | cons e es ih =>
    by_cases he : KeyedEntry.eqKey project e k = true
    · simpa [PartSet.takeList, he] using List.sublist_cons_self e es
    · simpa [PartSet.takeList, he] using List.Sublist.cons₂ e ih

theorem replaceList_append {v : V} {l₁ : List (KeyedEntry V P)}
    (l₂ : List (KeyedEntry V P)) (h : ∀ e ∈ l₁, project e.value ≠ project v) :
    PartSet.replaceList project v (l₁ ++ l₂) =
      (l₁ ++ (PartSet.replaceList project v l₂).1,
        (PartSet.replaceList project v l₂).2) := by
  induction l₁ with
  | nil => simp
  | cons e es ih =>
    have he : KeyedEntry.eqEntry project e ⟨v⟩ = false := by
      rw [eqEntry_mk]
      exact (eqKey_eq_false project).mpr (h e (by simp))
    simp [PartSet.replaceList, he, ih (fun x hx => h x (by simp [hx]))]

theorem replaceList_cons_pos {e : KeyedEntry V P} {es : List (KeyedEntry V P)}
    {v : V} (h : project e.value = project v) :
    PartSet.replaceList project v (e :: es) = (⟨v⟩ :: es, some e.value) := by
  simp [PartSet.replaceList, KeyedEntry.eqEntry, h]

theorem replaceList_cons_neg {e : KeyedEntry V P} {es : List (KeyedEntry V P)}
    {v : V} (h : project e.value ≠ project v) :
    PartSet.replaceList project v (e :: es) =
      (e :: (PartSet.replaceList project v es).1,
        (PartSet.replaceList project v es).2) := by
  simp [PartSet.replaceList, KeyedEntry.eqEntry, h]

theorem find?_key_cons_pos {e : KeyedEntry V P} {es : List (KeyedEntry V P)}
    {k : P} (h : project e.value = k) :
    (e :: es).find? (fun x => KeyedEntry.eqKey project x k) = some e := by
  simp [List.find?_cons, KeyedEntry.eqKey, h]

theorem find?_key_cons_neg {e : KeyedEntry V P} {es : List (KeyedEntry V P)}
    {k : P} (h : project e.value ≠ k) :
    (e :: es).find? (fun x => KeyedEntry.eqKey project x k) =
      es.find? (fun x => KeyedEntry.eqKey project x k) := by
  simp [List.find?_cons, KeyedEntry.eqKey, h]

theorem replaceList_snd (v : V) (l : List (KeyedEntry V P)) :
    (PartSet.replaceList project v l).2 =
      (l.find? (fun e => KeyedEntry.eqKey project e (project v))).map
        KeyedEntry.value := by
  induction l with
  | nil => rfl
  | cons e es ih =>
    by_cases he : project e.value = project v
    · rw [replaceList_cons_pos project he, find?_key_cons_pos project he]
      rfl
    · rw [replaceList_cons_neg project he, find?_key_cons_neg project he]
      exact ih

theorem find?_replaceList (v : V) (l : List (KeyedEntry V P)) :
    (PartSet.replaceList project v l).1.find?
        (fun e => KeyedEntry.eqKey project e (project v)) = some ⟨v⟩ := by
  induction l with
  | nil =>
    show ([⟨v⟩] : List (KeyedEntry V P)).find? _ = _
    exact find?_key_cons_pos project rfl
  | cons e es ih =>
    by_cases he : project e.value = project v
    · rw [replaceList_cons_pos project he]
      exact find?_key_cons_pos project rfl
    · rw [replaceList_cons_neg project he]
      rw [find?_key_cons_neg project he]
      exact ih

theorem mem_replaceList {v : V} {l : List (KeyedEntry V P)} {x : KeyedEntry V P}
    (hx : x ∈ (PartSet.replaceList project v l).1) : x ∈ l ∨ x = ⟨v⟩ := by
  induction l with
  | nil =>
    simp [PartSet.replaceList] at hx
    exact Or.inr hx
  | cons e es ih =>
    by_cases he : project e.value = project v
    · rw [replaceList_cons_pos project he] at hx
      rcases List.mem_cons.mp hx with h | h
      · exact Or.inr h
      · exact Or.inl (List.mem_cons_of_mem e h)
    · rw [replaceList_cons_neg project he] at hx
      rcases List.mem_cons.mp hx with h | h
      · exact Or.inl (h ▸ List.mem_cons_self e es)
      · rcases ih h with h2 | h2
        · exact Or.inl (List.mem_cons_of_mem e h2)
        · exact Or.inr h2

theorem replaceList_pairwise {v : V} {l : List (KeyedEntry V P)}
    (h : l.Pairwise (fun a b => project a.value ≠ project b.value)) :
    (PartSet.replaceList project v l).1.Pairwise
      (fun a b => project a.value ≠ project b.value) := by
  induction l with
  | nil =>
    simp [PartSet.replaceList]
  | cons e es ih =>
    rw [List.pairwise_cons] at h
    obtain ⟨h1, h2⟩ := h
    by_cases he : project e.value = project v
    · rw [replaceList_cons_pos project he]
      rw [List.pairwise_cons]
      exact ⟨fun x hx => he ▸ h1 x hx, h2⟩
    · rw [replaceList_cons_neg project he]
      rw [List.pairwise_cons]
      refine ⟨fun x hx => ?_, ih h2⟩
      rcases mem_replaceList project hx with hmem | rfl
      · exact h1 x hmem
      · exact he

theorem find?_key_none {l : List (KeyedEntry V P)} {k : P}
    (h : ∀ e ∈ l, project e.value ≠ k) :
    l.find? (fun e => KeyedEntry.eqKey project e k) = none :=
  List.find?_eq_none.mpr fun x hx => by
    rw [eqKey_eq_true project]
    exact h x hx

theorem insert_fresh {s : PartSet V P} {v : V}
    (h : PartSet.contains project s (project v) = false) :
    PartSet.insert project s v = (⟨s.inner ++ [⟨v⟩]⟩, true) := by
  rw [insert_eq_ite, if_neg]
  simp [h]

theorem get_snoc {l : List (KeyedEntry V P)} {v : V}
    (h : ∀ e ∈ l, project e.value ≠ project v) :
    PartSet.get project (⟨l ++ [⟨v⟩]⟩ : PartSet V P) (project v) = some v := by
  unfold PartSet.get
  rw [List.find?_append, find?_key_none project h, Option.none_or,
    find?_key_cons_pos project rfl]
  rfl

theorem keyCount_snoc_eq_one {l : List (KeyedEntry V P)} {v : V} {k : P}
    (h : ∀ e ∈ l, project e.value ≠ k) (hv : project v = k) :
    keyCount project (⟨l ++ [⟨v⟩]⟩ : PartSet V P) k = 1 := by
  unfold keyCount
  rw [List.filter_append]
  have h1 : l.filter (fun e => KeyedEntry.eqKey project e k) = [] :=
    List.filter_eq_nil_iff.mpr fun x hx => by
      rw [eqKey_eq_true project]
      exact h x hx
  rw [h1]
  simp [List.filter, KeyedEntry.eqKey, hv]

theorem replace_def (s : PartSet V P) (v : V) :
    PartSet.replace project s v =
      (⟨(PartSet.replaceList project v s.inner).1⟩,
        (PartSet.replaceList project v s.inner).2) := rfl

end Lemmas

section Invariant

variable [DecidableEq P] (project : V → P)

theorem keyUnique_insert {s : PartSet V P} {v : V} (h : KeyUnique project s) :
    KeyUnique project (PartSet.insert project s v).1 := by
  rw [insert_eq_ite]
  by_cases hc : PartSet.contains project s (project v) = true
  · rw [if_pos hc]
    exact h
  · rw [if_neg hc]
    simp only [Bool.not_eq_true] at hc
    have hfresh := (contains_eq_false project).mp hc
    unfold KeyUnique
    rw [List.pairwise_append]
    refine ⟨h, by simp, ?_⟩
    intro a ha b hb
    have hb2 : b = (⟨v⟩ : KeyedEntry V P) := by simpa using hb
    subst hb2
    exact hfresh a ha

theorem keyUnique_replace {s : PartSet V P} {v : V} (h : KeyUnique project s) :
    KeyUnique project (PartSet.replace project s v).1 :=
  replaceList_pairwise project h

theorem keyUnique_take {s : PartSet V P} {k : P} (h : KeyUnique project s) :
    KeyUnique project (PartSet.take project s k).1 :=
  List.Pairwise.sublist (takeList_sublist project k s.inner) h

theorem keyUnique_remove {s : PartSet V P} {k : P} (h : KeyUnique project s) :
    KeyUnique project (PartSet.remove project s k).1 :=
  keyUnique_take project h

theorem keyUnique_retain {s : PartSet V P} {f : V → Bool}
    (h : KeyUnique project s) : KeyUnique project (PartSet.retain s f) :=
  List.Pairwise.filter _ h

theorem drain_step_inner (s : PartSet V P) :
    (PartSet.drain s).step.set.inner = s.inner.tail := by
  cases s with
  | mk l => cases l <;> rfl

theorem keyUnique_drainStep {s : PartSet V P} (h : KeyUnique project s) :
    KeyUnique project (PartSet.drain s).step.set := by
  unfold KeyUnique
  rw [drain_step_inner]
  exact List.Pairwise.sublist (List.tail_sublist s.inner) h

end Invariant

/-! ### Lemmas about draining -/

theorem consume_mk (l : List (KeyedEntry V P)) :
    DrainIter.consume (⟨⟨l⟩⟩ : DrainIter V P) =
      (l.map KeyedEntry.value, (⟨[]⟩ : PartSet V P)) := by
  induction l with
  | nil => simp [DrainIter.consume]
  | cons e es ih => simp [DrainIter.consume, ih]

theorem iterate_step_inner (l : List (KeyedEntry V P)) (k : Nat) :
    (DrainIter.step^[k] (⟨⟨l⟩⟩ : DrainIter V P)).set.inner = l.drop k := by
  induction k generalizing l with
  | zero => rfl
  | succ n ih =>
    rw [Function.iterate_succ_apply]
    cases l with
    | nil =>
      rw [show DrainIter.step (⟨⟨[]⟩⟩ : DrainIter V P) = ⟨⟨[]⟩⟩ from rfl, ih]
      simp
    | cons e es =>
      rw [show DrainIter.step (⟨⟨e :: es⟩⟩ : DrainIter V P) = ⟨⟨es⟩⟩ from rfl,
        ih, List.drop_succ_cons]

/-! ### The claims -/

/-- C1: if the set already contains an entry whose projected key equals
v's projected key, insert(v) returns false and leaves the set unchanged
(the previously stored value is retained); otherwise insert(v) adds v as
a new entry and returns true. In particular, for values a and b with
equal projected keys (b's key fresh for the starting set), insert(a)
followed by insert(b) leaves exactly one entry at that key, whose value
is a (first-writer-wins). -/
theorem insert_spec [DecidableEq P] (project : V → P) (s : PartSet V P)
    (v a b : V) :
    (PartSet.contains project s (project v) = true →
      PartSet.insert project s v = (s, false)) ∧
    (PartSet.contains project s (project v) = false →
      (PartSet.insert project s v).2 = true ∧
      PartSet.get project (PartSet.insert project s v).1 (project v)
        = some v ∧
      PartSet.len (PartSet.insert project s v).1 = PartSet.len s + 1) ∧
    (project a = project b →
      PartSet.contains project s (project a) = false →
      keyCount project
          (PartSet.insert project (PartSet.insert project s a).1 b).1
          (project a) = 1 ∧
      PartSet.get project
          (PartSet.insert project (PartSet.insert project s a).1 b).1
          (project a) = some a) := by
  refine ⟨fun h => ?_, fun h => ?_, fun hk h => ?_⟩
  · rw [insert_eq_ite, if_pos h]
  · have hfresh := (contains_eq_false project).mp h
    rw [insert_fresh project h]
    exact ⟨rfl, get_snoc project hfresh, by simp [PartSet.len]⟩
  · have hfresh := (contains_eq_false project).mp h
    have h1 : (PartSet.insert project s a).1 = ⟨s.inner ++ [⟨a⟩]⟩ := by
      rw [insert_fresh project h]
    rw [h1]
    have hc1 : PartSet.contains project
        (⟨s.inner ++ [⟨a⟩]⟩ : PartSet V P) (project b) = true :=
      (contains_eq_true project).mpr ⟨⟨a⟩, by simp, hk⟩
    have h2 : PartSet.insert project
        (⟨s.inner ++ [⟨a⟩]⟩ : PartSet V P) b = (⟨s.inner ++ [⟨a⟩]⟩, false) := by
      rw [insert_eq_ite, if_pos hc1]
    rw [h2]
    exact ⟨keyCount_snoc_eq_one project hfresh rfl, get_snoc project hfresh⟩

theorem insert_spec_witness :
    keyCount pFst (PartSet.insert pFst
        (PartSet.insert pFst PartSet.new ((1, 10) : ℕ × ℕ)).1 (1, 20)).1
      (pFst (1, 10)) = 1 ∧
    PartSet.get pFst (PartSet.insert pFst
        (PartSet.insert pFst PartSet.new ((1, 10) : ℕ × ℕ)).1 (1, 20)).1
      (pFst (1, 10)) = some (1, 10) :=
  (insert_spec pFst PartSet.new (1, 10) (1, 10) (1, 20)).2.2
    (by decide) (by decide)

/-- C2: replace(v) stores v under its projected key; the previously
stored value at that key, if any, is returned, and None is returned
otherwise. In particular, for values a and b with equal projected keys
(fresh for the starting set), insert(a) followed by replace(b) leaves
exactly one entry at that key, whose value is b, and the replace call
returns Some a. -/
theorem replace_spec [DecidableEq P] (project : V → P) (s : PartSet V P)
    (v a b : V) :
    PartSet.get project (PartSet.replace project s v).1 (project v)
      = some v ∧
    (PartSet.replace project s v).2 = PartSet.get project s (project v) ∧
    (project a = project b →
      PartSet.contains project s (project a) = false →
      keyCount project
          (PartSet.replace project (PartSet.insert project s a).1 b).1
          (project a) = 1 ∧
      PartSet.get project
          (PartSet.replace project (PartSet.insert project s a).1 b).1
          (project a) = some b ∧
      (PartSet.replace project (PartSet.insert project s a).1 b).2
        = some a) := by
  refine ⟨?_, ?_, fun hk h => ?_⟩
  · rw [replace_def]
    unfold PartSet.get
    rw [find?_replaceList project]
    rfl
  · rw [replace_def]
    unfold PartSet.get
    exact replaceList_snd project v s.inner
  · have hfresh := (contains_eq_false project).mp h
    have hfreshb : ∀ e ∈ s.inner, project e.value ≠ project b :=
      fun e he => hk ▸ hfresh e he
    have h1 : (PartSet.insert project s a).1 = ⟨s.inner ++ [⟨a⟩]⟩ := by
      rw [insert_fresh project h]
    rw [h1]
    have h2 : PartSet.replace project
        (⟨s.inner ++ [⟨a⟩]⟩ : PartSet V P) b = (⟨s.inner ++ [⟨b⟩]⟩, some a) := by
      rw [replace_def]
      rw [replaceList_append project _ hfreshb]
      rw [replaceList_cons_pos project hk]
    rw [h2]
    refine ⟨keyCount_snoc_eq_one project hfresh hk.symm, ?_, rfl⟩
    rw [hk]
    exact get_snoc project hfreshb

theorem replace_spec_witness :
    keyCount pFst (PartSet.replace pFst
        (PartSet.insert pFst PartSet.new ((1, 10) : ℕ × ℕ)).1 (1, 20)).1
      (pFst (1, 10)) = 1 ∧
    PartSet.get pFst (PartSet.replace pFst
        (PartSet.insert pFst PartSet.new ((1, 10) : ℕ × ℕ)).1 (1, 20)).1
      (pFst (1, 10)) = some (1, 20) ∧
    (PartSet.replace pFst
        (PartSet.insert pFst PartSet.new ((1, 10) : ℕ × ℕ)).1 (1, 20)).2
      = some (1, 10) :=
  (replace_spec pFst PartSet.new (1, 10) (1, 10) (1, 20)).2.2
    (by decide) (by decide)

/-- C4: after inserting a value v whose projected key is not already
present, take of v's projected key returns Some v, and afterwards
contains on that key returns false. -/
theorem insert_take_roundtrip [DecidableEq P] (project : V → P)
    (s : PartSet V P) (v : V)
    (h : PartSet.contains project s (project v) = false) :
    (PartSet.take project (PartSet.insert project s v).1 (project v)).2
      = some v ∧
    PartSet.contains project
      (PartSet.take project (PartSet.insert project s v).1 (project v)).1
      (project v) = false := by
  have hfresh := (contains_eq_false project).mp h
  have h1 : (PartSet.insert project s v).1 = ⟨s.inner ++ [⟨v⟩]⟩ := by
    rw [insert_fresh project h]
  rw [h1]
  have h2 : PartSet.take project (⟨s.inner ++ [⟨v⟩]⟩ : PartSet V P)
      (project v) = (⟨s.inner⟩, some v) := by
    unfold PartSet.take
    rw [takeList_append project (project v) [⟨v⟩] hfresh]
    simp [PartSet.takeList, KeyedEntry.eqKey]
  rw [h2]
  exact ⟨rfl, h⟩

theorem insert_take_roundtrip_witness :
    (PartSet.take pFst
        (PartSet.insert pFst PartSet.new ((1, 10) : ℕ × ℕ)).1
        (pFst (1, 10))).2 = some (1, 10) ∧
    PartSet.contains pFst
      (PartSet.take pFst
        (PartSet.insert pFst PartSet.new ((1, 10) : ℕ × ℕ)).1
        (pFst (1, 10))).1
      (pFst (1, 10)) = false :=
  insert_take_roundtrip pFst PartSet.new (1, 10) (by decide)

/-- C7: for every key k with no member of the set projecting to k,
remove(k) returns false leaving the set unchanged, and get(k) returns
None. -/
theorem remove_get_absent [DecidableEq P] (project : V → P)
    (s : PartSet V P) (k : P)
    (h : PartSet.contains project s k = false) :
    PartSet.remove project s k = (s, false) ∧
    PartSet.get project s k = none := by
  have hall := (contains_eq_false project).mp h
  have ht : PartSet.takeList project k s.inner = (s.inner, none) :=
    takeList_eq_none project k hall
  constructor
  · unfold PartSet.remove PartSet.take
    rw [ht]
    rfl
  · unfold PartSet.get
    rw [find?_key_none project hall]
    rfl

theorem remove_get_absent_witness :
    PartSet.remove pFst wSet 5 = (wSet, false) ∧
    PartSet.get pFst wSet 5 = none :=
  remove_get_absent pFst wSet 5 (by decide)

/-- C3: every set state reachable from the empty set by the public
operations (insert, replace, remove, take, retain, drain, clear,
reserve, shrink) satisfies the uniqueness invariant: no two members have
equal projected keys. In particular a colliding insert never creates a
second entry for a key. -/
theorem reachable_keyUnique [DecidableEq P] (project : V → P)
    {s : PartSet V P} (h : Reachable project s) : KeyUnique project s := by
  induction h with
  | newStep => exact List.Pairwise.nil
  | insertStep s v _ ih => exact keyUnique_insert project ih
  | replaceStep s v _ ih => exact keyUnique_replace project ih
  | removeStep s k _ ih => exact keyUnique_remove project ih
  | takeStep s k _ ih => exact keyUnique_take project ih
  | retainStep s f _ ih => exact keyUnique_retain project ih
  | drainStep s _ ih => exact keyUnique_drainStep project ih
  | clearStep s _ ih => exact List.Pairwise.nil
  | reserveStep s n _ ih => exact ih
  | shrinkStep s n _ ih => exact ih

theorem reachable_keyUnique_witness :
    KeyUnique pFst
      (PartSet.insert pFst
        (PartSet.insert pFst PartSet.new ((1, 10) : ℕ × ℕ)).1 (1, 20)).1 :=
  reachable_keyUnique pFst
    (Reachable.insertStep _ (1, 20)
      (Reachable.insertStep _ (1, 10) Reachable.newStep))

/-- C8: two keyed entries compare equal exactly when their projected
keys are equal, even when the wrapped values differ, and an entry's hash
is the hash of its projected key: neither ever inspects the full value
structurally. -/
theorem keyedEntry_eq_hash [DecidableEq P] (project : V → P)
    (hashP : P → Nat) (a b : KeyedEntry V P) :
    (KeyedEntry.eqEntry project a b = true ↔
      project a.value = project b.value) ∧
    KeyedEntry.hashWith project hashP a = hashP (project a.value) := by
  constructor
  · simp [KeyedEntry.eqEntry]
  · rfl

theorem keyedEntry_eq_hash_witness :
    KeyedEntry.eqEntry pFst ⟨((1, 10) : ℕ × ℕ)⟩ ⟨(1, 20)⟩ = true :=
  ((keyedEntry_eq_hash pFst id ⟨(1, 10)⟩ ⟨(1, 20)⟩).1).mpr (by decide)

/-- C9: try_reserve returns a Result: a request that cannot be satisfied
(such as an adversarially huge one) produces the allocation-error
variant rather than aborting, and on success the set can hold at least
the requested number of additional entries. -/
theorem try_reserve_spec (s : PartSet V P) (capacity additional : Nat) :
    (maxCapacity < PartSet.len s + additional →
      PartSet.try_reserve s capacity additional =
        Except.error TryReserveError.capacityOverflow) ∧
    (∀ c : Nat, PartSet.try_reserve s capacity additional = Except.ok c →
      PartSet.len s + additional ≤ c ∧ capacity ≤ c) := by
  constructor
  · intro h
    unfold PartSet.try_reserve
    rw [if_pos h]
  · intro c hc
    unfold PartSet.try_reserve at hc
    by_cases h : maxCapacity < PartSet.len s + additional
    · rw [if_pos h] at hc
      exact absurd hc (by simp)
    · rw [if_neg h] at hc
      injection hc with h2
      subst h2
      exact ⟨le_max_right _ _, le_max_left _ _⟩

theorem try_reserve_spec_witness :
    PartSet.try_reserve (PartSet.new : PartSet (ℕ × ℕ) ℕ) 8 (2 ^ 64) =
      Except.error TryReserveError.capacityOverflow :=
  (try_reserve_spec PartSet.new 8 (2 ^ 64)).1 (by decide)

/-- C10: lookup coherence: contains(k) is true exactly when get(k)
returns Some, and a value returned by get(k) has projected key k. -/
theorem lookup_coherence [DecidableEq P] (project : V → P)
    (s : PartSet V P) (k : P) :
    (PartSet.contains project s k = true ↔
      (PartSet.get project s k).isSome = true) ∧
    (∀ v : V, PartSet.get project s k = some v → project v = k) := by
  constructor
  · unfold PartSet.contains PartSet.get
    rw [List.any_eq_true, Option.isSome_map']
    rw [List.find?_isSome]
  · intro v hv
    unfold PartSet.get at hv
    rcases Option.map_eq_some'.mp hv with ⟨e, he, hev⟩
    have h2 := List.find?_some he
    rw [eqKey_eq_true project] at h2
    rw [← hev]
    exact h2

theorem lookup_coherence_witness :
    (PartSet.contains pFst wSet 1 = true ↔
      (PartSet.get pFst wSet 1).isSome = true) ∧
    pFst (1, 10) = 1 :=
  ⟨(lookup_coherence pFst wSet 1).1,
    (lookup_coherence pFst wSet 1).2 (1, 10) (by decide)⟩

/-- C5: difference(self, other) yields exactly the values stored in self
whose projected key is not the projected key of any member of other —
each such value exactly once and no others — and yields nothing when
every projected key of self also occurs in other. -/
theorem difference_spec [DecidableEq P] (project : V → P)
    (s other : PartSet V P) (hs : KeyUnique project s) :
    (∀ v : V, v ∈ PartSet.difference project s other ↔
      (∃ e ∈ s.inner, e.value = v) ∧
        PartSet.contains project other (project v) = false) ∧
    (PartSet.difference project s other).Nodup ∧
    ((∀ e ∈ s.inner,
        PartSet.contains project other (project e.value) = true) →
      PartSet.difference project s other = []) := by
  have hp : ∀ e : KeyedEntry V P,
      other.inner.any (fun o => KeyedEntry.eqEntry project e o) =
        PartSet.contains project other (project e.value) := by
    intro e
    rw [Bool.eq_iff_iff]
    simp only [PartSet.contains, List.any_eq_true, KeyedEntry.eqEntry,
      KeyedEntry.eqKey, beq_iff_eq]
    constructor
    · rintro ⟨o, ho, hoe⟩
      exact ⟨o, ho, hoe.symm⟩
    · rintro ⟨o, ho, hoe⟩
      exact ⟨o, ho, hoe.symm⟩
  refine ⟨?_, ?_, ?_⟩
  · intro v
    unfold PartSet.difference
    rw [List.mem_map]
    constructor
    · rintro ⟨e, he, rfl⟩
      rw [List.mem_filter] at he
      obtain ⟨hmem, hpred⟩ := he
      simp only [hp e, Bool.not_eq_true'] at hpred
      exact ⟨⟨e, hmem, rfl⟩, hpred⟩
    · rintro ⟨⟨e, hmem, rfl⟩, hcon⟩
      refine ⟨e, ?_, rfl⟩
      rw [List.mem_filter]
      refine ⟨hmem, ?_⟩
      simp only [hp e, Bool.not_eq_true']
      exact hcon
  · have h1 : (s.inner.filter (fun e => ! other.inner.any
        (fun o => KeyedEntry.eqEntry project e o))).Pairwise
        (fun a b => project a.value ≠ project b.value) :=
      List.Pairwise.filter _ hs
    have h2 : (s.inner.filter (fun e => ! other.inner.any
        (fun o => KeyedEntry.eqEntry project e o))).Pairwise
        (fun a b => a.value ≠ b.value) :=
      h1.imp fun h hv => h (by rw [hv])
    exact List.pairwise_map.mpr h2
  · intro hall
    unfold PartSet.difference
    have h1 : s.inner.filter (fun e => ! other.inner.any
        (fun o => KeyedEntry.eqEntry project e o)) = [] := by
      rw [List.filter_eq_nil_iff]
      intro e he
      simp [hp e, hall e he]
    rw [h1]
    rfl

theorem difference_spec_witness :
    ((1, 10) ∈ PartSet.difference pFst wSet wOther) ∧
    (PartSet.difference pFst wSet wOther).Nodup := by
  have h := difference_spec pFst wSet wOther (by unfold KeyUnique; decide)
  exact ⟨(h.1 (1, 10)).mpr (by decide), h.2.1⟩

/-- C6: fully consuming drain() yields every value stored at the time of
the call exactly once (the yielded sequence is the stored sequence, with
no duplicates under the key-uniqueness invariant) and leaves the set
empty; consuming only k of the yields leaves the remaining entries still
queued for removal in the drain iterator. -/
theorem drain_spec [DecidableEq P] (project : V → P) (s : PartSet V P) :
    (DrainIter.consume (PartSet.drain s)).1 = PartSet.iter project s ∧
    PartSet.len (DrainIter.consume (PartSet.drain s)).2 = 0 ∧
    (KeyUnique project s → (DrainIter.consume (PartSet.drain s)).1.Nodup) ∧
    (∀ k : Nat, (DrainIter.step^[k] (PartSet.drain s)).set.inner =
      s.inner.drop k) := by
  have hc : DrainIter.consume (PartSet.drain s) =
      (s.inner.map KeyedEntry.value, (⟨[]⟩ : PartSet V P)) := by
    cases s with
    | mk l => exact consume_mk l
  refine ⟨by rw [hc]; rfl, by rw [hc]; rfl, ?_, ?_⟩
  · intro hu
    rw [hc]
    exact List.pairwise_map.mpr (hu.imp fun h hv => h (by rw [hv]))
  · intro k
    cases s with
    | mk l => exact iterate_step_inner l k

theorem drain_spec_witness :
    (DrainIter.consume (PartSet.drain wSet)).1 = [(1, 10), (2, 20)] ∧
    PartSet.len (DrainIter.consume (PartSet.drain wSet)).2 = 0 ∧
    (DrainIter.consume (PartSet.drain wSet)).1.Nodup ∧
    (DrainIter.step^[1] (PartSet.drain wSet)).set.inner =
      wSet.inner.drop 1 := by
  have h := drain_spec pFst wSet
  exact ⟨by rw [h.1]; rfl, h.2.1, h.2.2.1 (by unfold KeyUnique; decide), h.2.2.2 1⟩

end RsPartialSet
